import Mathlib

/-!
A shallow embedding in Lean 4 of the turn-validation and game-state engine of
the "Cities" word-chain chat game (`src/city.py`), together with proofs of the
specified properties.

Modelling conventions:
* A Python `str` is a `List Char`.
* Character-level operations (`str.lower`, `str.isalpha`, `str.strip`) are
  modelled on the repertoire the program works with: basic Latin letters and
  Russian Cyrillic letters (including ё/Ё), with ASCII whitespace.  On this
  repertoire every character is a precomposed NFC singleton, so
  `unicodedata.normalize("NFC", ·)` is the identity and is modelled as such.
* Python `set` becomes `Finset`, `dict` becomes an association list,
  `Optional[T]` becomes `Option T`, and the handlers' chat replies become a
  structured outcome value.
-/

/-- Lowercase/uppercase pairs of the modelled repertoire, as Python's
`str.lower` maps them: uppercase Latin `A`-`Z`, uppercase Cyrillic `А`-`Я`
and `Ё`, each paired with its lowercase form.  All other characters are
left unchanged by `pyLower`. -/
def lowerPairs : List (Char × Char) :=
  [('A', 'a'), ('B', 'b'), ('C', 'c'), ('D', 'd'), ('E', 'e'), ('F', 'f'),
   ('G', 'g'), ('H', 'h'), ('I', 'i'), ('J', 'j'), ('K', 'k'), ('L', 'l'),
   ('M', 'm'), ('N', 'n'), ('O', 'o'), ('P', 'p'), ('Q', 'q'), ('R', 'r'),
   ('S', 's'), ('T', 't'), ('U', 'u'), ('V', 'v'), ('W', 'w'), ('X', 'x'),
   ('Y', 'y'), ('Z', 'z'),
   ('А', 'а'), ('Б', 'б'), ('В', 'в'), ('Г', 'г'), ('Д', 'д'), ('Е', 'е'),
   ('Ж', 'ж'), ('З', 'з'), ('И', 'и'), ('Й', 'й'), ('К', 'к'), ('Л', 'л'),
   ('М', 'м'), ('Н', 'н'), ('О', 'о'), ('П', 'п'), ('Р', 'р'), ('С', 'с'),
   ('Т', 'т'), ('У', 'у'), ('Ф', 'ф'), ('Х', 'х'), ('Ц', 'ц'), ('Ч', 'ч'),
   ('Ш', 'ш'), ('Щ', 'щ'), ('Ъ', 'ъ'), ('Ы', 'ы'), ('Ь', 'ь'), ('Э', 'э'),
   ('Ю', 'ю'), ('Я', 'я'), ('Ё', 'ё')]

/-- Model of Python `str.lower` at a single character of the modelled
repertoire. -/
def pyLower (c : Char) : Char :=
  match lowerPairs.lookup c with
  | some d => d
  | none => c

/-- The exact character class written in `normalize_text`'s membership test
`c in 'абвгдеёжзийклмнопрстуфхцчшщъыьэюя'`: the 33 lowercase Russian
letters. -/
def RUS : List Char :=
  ['а', 'б', 'в', 'г', 'д', 'е', 'ё', 'ж', 'з', 'и', 'й', 'к', 'л', 'м',
   'н', 'о', 'п', 'р', 'с', 'т', 'у', 'ф', 'х', 'ц', 'ч', 'ш', 'щ', 'ъ',
   'ы', 'ь', 'э', 'ю', 'я']

/-- The uppercase Russian letters of the modelled repertoire. -/
def RUSUpper : List Char :=
  ['А', 'Б', 'В', 'Г', 'Д', 'Е', 'Ё', 'Ж', 'З', 'И', 'Й', 'К', 'Л', 'М',
   'Н', 'О', 'П', 'Р', 'С', 'Т', 'У', 'Ф', 'Х', 'Ц', 'Ч', 'Ш', 'Щ', 'Ъ',
   'Ы', 'Ь', 'Э', 'Ю', 'Я']

/-- The lowercase Latin letters. -/
def latinLower : List Char :=
  ['a', 'b', 'c', 'd', 'e', 'f', 'g', 'h', 'i', 'j', 'k', 'l', 'm',
   'n', 'o', 'p', 'q', 'r', 's', 't', 'u', 'v', 'w', 'x', 'y', 'z']

/-- The uppercase Latin letters. -/
def latinUpper : List Char :=
  ['A', 'B', 'C', 'D', 'E', 'F', 'G', 'H', 'I', 'J', 'K', 'L', 'M',
   'N', 'O', 'P', 'Q', 'R', 'S', 'T', 'U', 'V', 'W', 'X', 'Y', 'Z']

/-- Model of Python `str.isalpha` at a single character: true exactly for the
alphabetic characters of the modelled repertoire (Latin and Russian letters,
both cases). -/
def pyIsAlpha (c : Char) : Bool :=
  c ∈ RUS ++ RUSUpper ++ latinLower ++ latinUpper

/-- The character filter of `normalize_text`'s final comprehension:
`c.isalpha() or c in 'абвгдеёжзийклмнопрстуфхцчшщъыьэюя'`. -/
def keepAlpha (c : Char) : Bool :=
  pyIsAlpha c || c ∈ RUS

/-- Model of Python `str.strip`'s whitespace class on the modelled
repertoire: the ASCII whitespace characters. -/
def pyIsSpace (c : Char) : Bool :=
  c = ' ' || c = '\t' || c = '\n' || c = '\r'

/-- Model of Python `str.strip`: drop leading and trailing whitespace. -/
def pyStrip (s : List Char) : List Char :=
  ((s.dropWhile pyIsSpace).reverse.dropWhile pyIsSpace).reverse

/-- `normalize_text` (src/city.py:35-45): NFC-normalize (identity on the
modelled repertoire), strip, lowercase, fold `ё` to `е`, delete hyphens and
spaces, and keep only characters passing `keepAlpha`.  The Python `try`
wrapper never fires on the modelled total functions, so it is not
represented. -/
def normalize_text (s : List Char) : List Char :=
  let s1 := (pyStrip s).map pyLower
  let s2 := s1.map fun c => if c = 'ё' then 'е' else c
  let s3 := s2.filter fun c => c ≠ '-'
  let s4 := s3.filter fun c => c ≠ ' '
  s4.filter keepAlpha

/-- `build_city_index` (src/city.py:47-53): normalize every raw name, discard
empties, deduplicate into a set; the per-letter map sends each letter to the
names of the set beginning with it (the net effect of the insertion loop over
the set) and, like `defaultdict`/`dict.get(·, set())`, yields the empty set at
every other letter. -/
def build_city_index (cities : List (List Char)) :
    Finset (List Char) × (Char → Finset (List Char)) :=
  let all_norm : Finset (List Char) :=
    ((cities.map normalize_text).filter fun c => c ≠ []).toFinset
  (all_norm, fun l => all_norm.filter fun c => c.head? = some l)

/-- `TAIL_SKIP` (src/city.py:60): the letters ignored at the end of a city
name when computing the next required letter. -/
def TAIL_SKIP : Finset Char := {'ь', 'ъ', 'ы'}

/-- `last_working_letter` (src/city.py:62-70): normalize, then scan from the
end and return the first character outside `TAIL_SKIP`; `none` when the
normalized form is empty or consists only of `TAIL_SKIP` characters. -/
def last_working_letter (city : List Char) : Option Char :=
  let c := normalize_text city
  c.reverse.find? fun ch => decide (ch ∉ TAIL_SKIP)

/-- The `Game` dataclass (src/city.py:72-90). -/
structure Game where
  players : List Int
  usernames : List (Int × List Char)
  used : Finset (List Char)
  turn_idx : Nat
  need_letter : Option Char
  started : Bool
deriving DecidableEq

/-- `Game.current_player` (src/city.py:81-84): `None` on an empty participant
list, otherwise the participant at `turn_idx % len(players)`. -/
def Game.current_player (g : Game) : Option Int :=
  if g.players = [] then none
  else g.players[g.turn_idx % g.players.length]?

/-- `Game.next_turn` (src/city.py:86-87). -/
def Game.next_turn (g : Game) : Game :=
  { g with turn_idx := (g.turn_idx + 1) % g.players.length }

/-- `Game.add_used` (src/city.py:89-90). -/
def Game.add_used (g : Game) (city_norm : List Char) : Game :=
  { g with used := insert city_norm g.used }

/-- The string reason codes of `validate_move`, as a closed enumeration. -/
inductive Reason where
  | invalid_name
  | not_in_db
  | already_used
  | wrong_letter
  | ok
deriving DecidableEq, Repr

/-- `validate_move` (src/city.py:92-102).  The global `CITIES` set is passed
as the `cities` parameter.  `city.startswith(game.need_letter)` with the
single-character `need_letter` is the test `city.head? = some l`; Python's
`if game.need_letter` guard is the `match` on the `Option`. -/
def validate_move (cities : Finset (List Char)) (game : Game) (raw_city : List Char) :
    Bool × Reason :=
  let city := normalize_text raw_city
  if city = [] ∨ last_working_letter city = none then (false, Reason.invalid_name)
  else if city ∉ cities then (false, Reason.not_in_db)
  else if city ∈ game.used then (false, Reason.already_used)
  else
    match game.need_letter with
    | none => (true, Reason.ok)
    | some l =>
      if city.head? = some l then (true, Reason.ok) else (false, Reason.wrong_letter)

/-- `has_moves` (src/city.py:104-108): with no required letter there is always
a move; otherwise the bucket for the letter minus `used` must be non-empty.
The global `CITIES_BY_FIRST` map is passed as the `by_first` parameter. -/
def has_moves (by_first : Char → Finset (List Char)) (game : Game) : Bool :=
  match game.need_letter with
  | none => true
  | some l => decide (0 < ((by_first l) \ game.used).card)

/-- Lookup in an association list modelling a Python `dict`. -/
def alistGet {β : Type} : List (Int × β) → Int → Option β
  | [], _ => none
  | p :: rest, key => if key = p.1 then some p.2 else alistGet rest key

/-- Key deletion in an association list modelling a Python `dict`. -/
def alistErase {β : Type} (l : List (Int × β)) (k : Int) : List (Int × β) :=
  l.filter fun p => p.1 ≠ k

/-- Key update in an association list modelling a Python `dict`: the result
maps `k` to `v` and every other key as before. -/
def alistSet {β : Type} (l : List (Int × β)) (k : Int) (v : β) : List (Int × β) :=
  (k, v) :: alistErase l k

/-- Outcome of `cmd_start`. -/
inductive StartOutcome where
  | already_created
  | lobby_created
deriving DecidableEq, Repr

/-- Outcome of `cmd_join`; `joined` carries the id of the participant whose
turn it is. -/
inductive JoinOutcome where
  | no_game
  | already_in
  | lobby_full
  | joined (first : Option Int)
deriving DecidableEq, Repr

/-- Outcome of `handle_text`.  `silent_ignore` is the reply-less return when
no game exists for the chat. -/
inductive TextOutcome where
  | silent_ignore
  | waiting_second
  | not_in_game
  | not_your_turn
  | rejected (r : Reason)
  | accepted_win (winner : Int)
  | accepted_next (next : Option Int)
deriving DecidableEq, Repr

/-- Session-logic core of `cmd_start` (src/city.py:129-139): reject when a
game already exists, otherwise register a fresh one-player lobby. -/
def cmd_start (games : List (Int × Game)) (chat_id user_id : Int)
    (username : List Char) : List (Int × Game) × StartOutcome :=
  match alistGet games chat_id with
  | some _ => (games, StartOutcome.already_created)
  | none =>
    let g : Game := ⟨[user_id], [(user_id, username)], ∅, 0, none, false⟩
    (alistSet games chat_id g, StartOutcome.lobby_created)

/-- Session-logic core of `cmd_join` (src/city.py:141-159): reject when no
game exists, the user is already in, or the lobby is full; otherwise append
the second player, record the display name and set `started`. -/
def cmd_join (games : List (Int × Game)) (chat_id user_id : Int)
    (username : List Char) : List (Int × Game) × JoinOutcome :=
  match alistGet games chat_id with
  | none => (games, JoinOutcome.no_game)
  | some g =>
    if user_id ∈ g.players then (games, JoinOutcome.already_in)
    else if 2 ≤ g.players.length then (games, JoinOutcome.lobby_full)
    else
      let g' : Game :=
        { g with players := g.players ++ [user_id],
                 usernames := alistSet g.usernames user_id username,
                 started := true }
      (alistSet games chat_id g', JoinOutcome.joined g'.players[g'.turn_idx]?)

/-- Session-logic core of `cmd_restart` (src/city.py:222-227): discard the
session unconditionally. -/
def cmd_restart (games : List (Int × Game)) (chat_id : Int) : List (Int × Game) :=
  alistErase games chat_id

/-- Session-logic core of `handle_text` (src/city.py:171-220): the guard
checks, then validation; on an accepted move record the city, recompute the
required letter, advance the turn, and either finish (deleting the session,
the mover winning) when `has_moves` fails or store the updated session. -/
def handle_text (cities : Finset (List Char)) (by_first : Char → Finset (List Char))
    (games : List (Int × Game)) (chat_id user_id : Int) (text : List Char) :
    List (Int × Game) × TextOutcome :=
  match alistGet games chat_id with
  | none => (games, TextOutcome.silent_ignore)
  | some g =>
    if ¬ g.started ∨ g.players.length < 2 then (games, TextOutcome.waiting_second)
    else if user_id ∉ g.players then (games, TextOutcome.not_in_game)
    else if g.current_player ≠ some user_id then (games, TextOutcome.not_your_turn)
    else
      let vr := validate_move cities g text
      let city_norm := normalize_text text
      if vr.1 = false then (games, TextOutcome.rejected vr.2)
      else
        let g2 : Game :=
          { g.add_used city_norm with need_letter := last_working_letter city_norm }
        let g3 := g2.next_turn
        if has_moves by_first g3 = false then
          (alistErase games chat_id, TextOutcome.accepted_win user_id)
        else
          (alistSet games chat_id g3, TextOutcome.accepted_next g3.current_player)

/-! ### Character-level lemmas about the normalizer -/

/-- A successful association-list lookup returns one of the stored values. -/
theorem lookup_mem_values {l : List (Char × Char)} {c d : Char}
    (h : l.lookup c = some d) : d ∈ l.map Prod.snd := by
  induction l with
  | nil => simp [List.lookup] at h
  | cons p rest ih =>
    rw [List.lookup] at h
    by_cases hc : c == p.1
    · simp [hc] at h
      simp [h]
    · simp [hc] at h
      exact List.mem_cons_of_mem _ (ih h)

/-- No lowercase image is itself a key of `lowerPairs`. -/
theorem lookup_lowerPairs_value :
    ∀ d ∈ lowerPairs.map Prod.snd, lowerPairs.lookup d = none := by
  decide

/-- `pyLower` is idempotent. -/
theorem pyLower_idem (c : Char) : pyLower (pyLower c) = pyLower c := by
  unfold pyLower
  cases h : lowerPairs.lookup c with
  | none => simp [h]
  | some d => simp [lookup_lowerPairs_value d (lookup_mem_values h)]

/-- `keepAlpha` holds exactly when `pyIsAlpha` does: the extra Russian-letter
disjunct of the source is subsumed by `isalpha`. -/
theorem keepAlpha_eq_pyIsAlpha (c : Char) : keepAlpha c = pyIsAlpha c := by
  by_cases h : c ∈ RUS
  · simp [keepAlpha, pyIsAlpha, h, List.mem_append]
  · simp [keepAlpha, pyIsAlpha, h]

/-- Characters passing `keepAlpha` are neither whitespace, a hyphen, a space,
nor `ё`-foldable targets of interest: the facts the idempotence argument
needs. -/
theorem keepAlpha_props {c : Char} (h : keepAlpha c = true) :
    pyIsSpace c = false ∧ c ≠ '-' ∧ c ≠ ' ' := by
  rw [keepAlpha_eq_pyIsAlpha] at h
  unfold pyIsAlpha at h
  simp only [decide_eq_true_eq] at h
  have key : ∀ d ∈ RUS ++ RUSUpper ++ latinLower ++ latinUpper,
      pyIsSpace d = false ∧ d ≠ '-' ∧ d ≠ ' ' := by
    set_option maxRecDepth 4000 in decide
  exact key c h

/-- Every character of a normalized string is a `pyLower` fixed point,
is not `ё`, and passes `keepAlpha`. -/
theorem mem_normalize_props {s : List Char} {c : Char}
    (h : c ∈ normalize_text s) :
    pyLower c = c ∧ c ≠ 'ё' ∧ keepAlpha c = true := by
  simp only [normalize_text, List.mem_filter] at h
  obtain ⟨⟨⟨h2, _⟩, _⟩, hka⟩ := h
  obtain ⟨b, hb, hbc⟩ := List.mem_map.mp h2
  obtain ⟨a, _, hab⟩ := List.mem_map.mp hb
  have key : pyLower c = c ∧ c ≠ 'ё' := by
    by_cases hyo : b = 'ё'
    · subst hyo
      rw [if_pos rfl] at hbc
      subst hbc
      exact ⟨by decide, by decide⟩
    · rw [if_neg hyo] at hbc
      subst hbc
      exact ⟨by rw [← hab]; exact pyLower_idem a, hyo⟩
  exact ⟨key.1, key.2, hka⟩

/-- `dropWhile` is the identity on a list none of whose elements satisfy the
predicate. -/
theorem dropWhile_eq_self_of {p : Char → Bool} {l : List Char}
    (h : ∀ c ∈ l, p c = false) : l.dropWhile p = l := by
  cases l with
  | nil => rfl
  | cons a t => simp [List.dropWhile_cons, h a (List.mem_cons_self a t)]

/-- `pyStrip` is the identity on a list with no whitespace characters. -/
theorem pyStrip_eq_self {l : List Char} (h : ∀ c ∈ l, pyIsSpace c = false) :
    pyStrip l = l := by
  unfold pyStrip
  rw [dropWhile_eq_self_of h,
    dropWhile_eq_self_of (fun c hc => h c (List.mem_reverse.mp hc)),
    List.reverse_reverse]

/-- `map` is the identity when the function fixes every element. -/
theorem map_eq_self_of {f : Char → Char} {l : List Char}
    (h : ∀ c ∈ l, f c = c) : l.map f = l := by
  induction l with
  | nil => rfl
  | cons a t ih =>
    rw [List.map_cons, h a (List.mem_cons_self a t),
      ih fun c hc => h c (List.mem_cons_of_mem a hc)]

/-- Claim C4.  Normalization is idempotent: `normalize_text` applied to an
already-normalized string yields it unchanged, so
`normalize_text (normalize_text x) = normalize_text x` for every input. -/
theorem normalize_text_idem (s : List Char) :
    normalize_text (normalize_text s) = normalize_text s := by
  set t := normalize_text s with ht
  have hprops : ∀ c ∈ t, pyLower c = c ∧ c ≠ 'ё' ∧ keepAlpha c = true := by
    intro c hc
    rw [ht] at hc
    exact mem_normalize_props hc
  have h1 : pyStrip t = t :=
    pyStrip_eq_self fun c hc => (keepAlpha_props (hprops c hc).2.2).1
  have h2 : t.map pyLower = t := map_eq_self_of fun c hc => (hprops c hc).1
  have h3 : t.map (fun c => if c = 'ё' then 'е' else c) = t :=
    map_eq_self_of fun c hc => if_neg (hprops c hc).2.1
  have h4 : t.filter (fun c => c ≠ '-') = t :=
    List.filter_eq_self.mpr fun c hc => by
      simpa using (keepAlpha_props (hprops c hc).2.2).2.1
  have h5 : t.filter (fun c => c ≠ ' ') = t :=
    List.filter_eq_self.mpr fun c hc => by
      simpa using (keepAlpha_props (hprops c hc).2.2).2.2
  have h6 : t.filter keepAlpha = t :=
    List.filter_eq_self.mpr fun c hc => (hprops c hc).2.2
  calc normalize_text t
      = ((((((pyStrip t).map pyLower).map
          (fun c => if c = 'ё' then 'е' else c)).filter
          (fun c => c ≠ '-')).filter (fun c => c ≠ ' ')).filter keepAlpha) := rfl
    _ = t := by rw [h1, h2, h3, h4, h5, h6]

/-- Claim C7.  `last_working_letter` walks the normalized name from its end
skipping `TAIL_SKIP` characters: it is `none` exactly when every character of
the normalized form is skippable (in particular when it is empty), and it is
`some ch` exactly when the normalized form splits as `pre ++ ch :: suf` with
`ch` outside `TAIL_SKIP` and the whole tail `suf` inside it; concretely it
yields `а` on `москва` and, skipping the trailing `ь`, `н` on `казань`. -/
theorem last_working_letter_spec :
    (∀ city : List Char,
      (last_working_letter city = none ↔ ∀ c ∈ normalize_text city, c ∈ TAIL_SKIP)
      ∧ (∀ ch : Char, last_working_letter city = some ch ↔
          ch ∉ TAIL_SKIP ∧ ∃ pre suf, normalize_text city = pre ++ ch :: suf ∧
            ∀ c ∈ suf, c ∈ TAIL_SKIP))
    ∧ last_working_letter ['м', 'о', 'с', 'к', 'в', 'а'] = some 'а'
    ∧ last_working_letter ['к', 'а', 'з', 'а', 'н', 'ь'] = some 'н' := by
  refine ⟨fun city => ⟨?_, fun ch => ⟨?_, ?_⟩⟩, by decide, by decide⟩
  · unfold last_working_letter
    rw [List.find?_eq_none]
    constructor
    · intro h c hc
      have := h c (List.mem_reverse.mpr hc)
      simpa using this
    · intro h c hc
      have := h c (List.mem_reverse.mp hc)
      simp [this]
  · intro h
    unfold last_working_letter at h
    rw [List.find?_eq_some] at h
    obtain ⟨hp, as, bs, heq, hall⟩ := h
    have hc : normalize_text city = bs.reverse ++ ch :: as.reverse := by
      have h2 := congrArg List.reverse heq
      simpa [List.reverse_append] using h2
    refine ⟨by simpa using hp, bs.reverse, as.reverse, hc, ?_⟩
    intro x hx
    have := hall x (List.mem_reverse.mp hx)
    simpa using this
  · rintro ⟨hch, pre, suf, heq, hall⟩
    unfold last_working_letter
    rw [List.find?_eq_some]
    refine ⟨by simpa using hch, suf.reverse, pre.reverse, ?_, ?_⟩
    · rw [heq]
      simp [List.reverse_append]
    · intro x hx
      have := hall x (List.mem_reverse.mp hx)
      simpa using this

/-- Counterexample to claim C5 as stated: the Latin letter `x` survives
normalization, so not every character of a normalized string belongs to the
Russian alphabet. -/
theorem normalize_keeps_nonrussian_letter :
    ¬ (∀ c ∈ normalize_text ['x'], c ∈ RUS) := by
  decide

/-- Claim C5, amended.  `normalize_text` keeps exactly the characters passing
the source's alphabetic test (`isalpha` or membership in the Russian-letter
string): every character of the output satisfies it, but alphabetic letters
outside the Russian alphabet (e.g. Latin ones) are retained rather than
removed. -/
theorem normalize_chars_alpha :
    (∀ s : List Char, ∀ c ∈ normalize_text s, keepAlpha c = true)
    ∧ normalize_text ['x'] = ['x'] := by
  exact ⟨fun s c hc => (mem_normalize_props hc).2.2, by decide⟩

/-- Witness for `normalize_chars_alpha` at a concrete input. -/
theorem normalize_chars_alpha_witness :
    ('м' ∈ normalize_text ['М', 'о']) ∧ keepAlpha 'м' = true :=
  ⟨by decide, normalize_chars_alpha.1 ['М', 'о'] 'м' (by decide)⟩

/-- Claim C6.  The index built by `build_city_index` partitions the
normalized set by first letter: a name is in the set iff it is in some
bucket, buckets for distinct letters are disjoint, and every name in the
bucket of `l` starts with `l`. -/
theorem build_city_index_partition :
    ∀ cities : List (List Char),
      (∀ n, n ∈ (build_city_index cities).1 ↔
        ∃ l, n ∈ (build_city_index cities).2 l)
      ∧ (∀ l l', l ≠ l' → ∀ n, n ∈ (build_city_index cities).2 l →
          n ∉ (build_city_index cities).2 l')
      ∧ (∀ l n, n ∈ (build_city_index cities).2 l → n.head? = some l) := by
  intro cities
  have hhead : ∀ l n, n ∈ (build_city_index cities).2 l → n.head? = some l := by
    intro l n hn
    exact (Finset.mem_filter.mp hn).2
  refine ⟨?_, ?_, hhead⟩
  · intro n
    constructor
    · intro hn
      have hlist := List.mem_toFinset.mp hn
      have hne : n ≠ [] := by simpa using (List.mem_filter.mp hlist).2
      cases n with
      | nil => exact absurd rfl hne
      | cons a t => exact ⟨a, Finset.mem_filter.mpr ⟨hn, rfl⟩⟩
    · rintro ⟨l, hl⟩
      exact (Finset.mem_filter.mp hl).1
  · intro l l' hll n hl hl'
    exact hll (Option.some_injective _ ((hhead l n hl).symm.trans (hhead l' n hl')))

/-- Witness for `build_city_index_partition` at a concrete index. -/
theorem build_city_index_partition_witness :
    (['м', 'о', 'с', 'к', 'в', 'а'] ∈
      (build_city_index [['М', 'о', 'с', 'к', 'в', 'а'], ['О', 'м', 'с', 'к']]).2 'м')
    ∧ (['м', 'о', 'с', 'к', 'в', 'а'] : List Char).head? = some 'м' :=
  ⟨by decide,
    (build_city_index_partition [['М', 'о', 'с', 'к', 'в', 'а'], ['О', 'м', 'с', 'к']]).2.2
      'м' ['м', 'о', 'с', 'к', 'в', 'а'] (by decide)⟩

/-- Claim C10.  `Game.current_player` is total: it is `none` exactly on an
empty participant list, and otherwise returns the participant stored at
index `turn_idx % len(players)`, an element of the list, whatever the value
of `turn_idx`. -/
theorem current_player_total :
    ∀ g : Game,
      (g.players = [] → g.current_player = none)
      ∧ (g.players ≠ [] → ∃ p, g.current_player = some p ∧ p ∈ g.players ∧
          g.players[g.turn_idx % g.players.length]? = some p) := by
  intro g
  constructor
  · intro h
    simp [Game.current_player, h]
  · intro h
    have hlen : 0 < g.players.length := List.length_pos.mpr h
    have hlt : g.turn_idx % g.players.length < g.players.length :=
      Nat.mod_lt _ hlen
    obtain ⟨p, hp⟩ : ∃ p, g.players[g.turn_idx % g.players.length]? = some p := by
      rw [List.getElem?_eq_getElem hlt]
      exact ⟨_, rfl⟩
    exact ⟨p, by simp [Game.current_player, h, hp], List.getElem?_mem hp, hp⟩

/-- Witness for `current_player_total` at a concrete session whose
`turn_idx` exceeds the participant count. -/
theorem current_player_total_witness :
    ∃ p, Game.current_player ⟨[5, 7], [], ∅, 9, none, true⟩ = some p ∧
      p ∈ [(5 : Int), 7] ∧ [(5 : Int), 7][9 % 2]? = some p :=
  (current_player_total ⟨[5, 7], [], ∅, 9, none, true⟩).2 (by decide)

/-! ### Helper lemmas about validation and the registry -/

/-- A reported current player is one of the participants. -/
theorem mem_of_current_player {g : Game} {u : Int}
    (h : g.current_player = some u) : u ∈ g.players := by
  unfold Game.current_player at h
  by_cases hp : g.players = []
  · simp [hp] at h
  · rw [if_neg hp] at h
    exact List.getElem?_mem h

/-- Branch lemma: an invalid name short-circuits `validate_move`. -/
theorem validate_move_invalid (cities : Finset (List Char)) (g : Game)
    (raw : List Char)
    (hA : normalize_text raw = [] ∨ last_working_letter (normalize_text raw) = none) :
    validate_move cities g raw = (false, Reason.invalid_name) := by
  simp only [validate_move]
  rw [if_pos hA]

/-- Branch lemma: a valid name outside the dictionary yields `not_in_db`. -/
theorem validate_move_not_in_db (cities : Finset (List Char)) (g : Game)
    (raw : List Char)
    (hA : ¬(normalize_text raw = [] ∨ last_working_letter (normalize_text raw) = none))
    (hB : normalize_text raw ∉ cities) :
    validate_move cities g raw = (false, Reason.not_in_db) := by
  simp only [validate_move]
  rw [if_neg hA, if_pos hB]

/-- Branch lemma: a dictionary city already played yields `already_used`. -/
theorem validate_move_already (cities : Finset (List Char)) (g : Game)
    (raw : List Char)
    (hA : ¬(normalize_text raw = [] ∨ last_working_letter (normalize_text raw) = none))
    (hB : normalize_text raw ∈ cities) (hC : normalize_text raw ∈ g.used) :
    validate_move cities g raw = (false, Reason.already_used) := by
  simp only [validate_move]
  rw [if_neg hA, if_neg (not_not_intro hB), if_pos hC]

/-- Branch lemma: with no required letter, a fresh dictionary city is
accepted. -/
theorem validate_move_ok_none (cities : Finset (List Char)) (g : Game)
    (raw : List Char)
    (hA : ¬(normalize_text raw = [] ∨ last_working_letter (normalize_text raw) = none))
    (hB : normalize_text raw ∈ cities) (hC : normalize_text raw ∉ g.used)
    (hnl : g.need_letter = none) :
    validate_move cities g raw = (true, Reason.ok) := by
  simp only [validate_move]
  rw [if_neg hA, if_neg (not_not_intro hB), if_neg hC, hnl]

/-- Branch lemma: a fresh dictionary city starting with the required letter
is accepted. -/
theorem validate_move_ok_some (cities : Finset (List Char)) (g : Game)
    (raw : List Char) (l : Char)
    (hA : ¬(normalize_text raw = [] ∨ last_working_letter (normalize_text raw) = none))
    (hB : normalize_text raw ∈ cities) (hC : normalize_text raw ∉ g.used)
    (hnl : g.need_letter = some l) (hd : (normalize_text raw).head? = some l) :
    validate_move cities g raw = (true, Reason.ok) := by
  simp only [validate_move]
  rw [if_neg hA, if_neg (not_not_intro hB), if_neg hC, hnl]
  simp only [if_pos hd]

/-- Branch lemma: a fresh dictionary city not starting with the required
letter yields `wrong_letter`. -/
theorem validate_move_wrong (cities : Finset (List Char)) (g : Game)
    (raw : List Char) (l : Char)
    (hA : ¬(normalize_text raw = [] ∨ last_working_letter (normalize_text raw) = none))
    (hB : normalize_text raw ∈ cities) (hC : normalize_text raw ∉ g.used)
    (hnl : g.need_letter = some l) (hd : ¬(normalize_text raw).head? = some l) :
    validate_move cities g raw = (false, Reason.wrong_letter) := by
  simp only [validate_move]
  rw [if_neg hA, if_neg (not_not_intro hB), if_neg hC, hnl]
  simp only [if_neg hd]

/-- `validate_move` pairs `true` only with the reason `ok`. -/
theorem validate_move_true {cities : Finset (List Char)} {g : Game}
    {raw : List Char} (h : (validate_move cities g raw).1 = true) :
    validate_move cities g raw = (true, Reason.ok) := by
  by_cases hA : normalize_text raw = [] ∨ last_working_letter (normalize_text raw) = none
  · rw [validate_move_invalid cities g raw hA] at h
    simp at h
  by_cases hB : normalize_text raw ∈ cities
  case neg =>
    rw [validate_move_not_in_db cities g raw hA hB] at h
    simp at h
  by_cases hC : normalize_text raw ∈ g.used
  · rw [validate_move_already cities g raw hA hB hC] at h
    simp at h
  cases hnl : g.need_letter with
  | none => exact validate_move_ok_none cities g raw hA hB hC hnl
  | some l =>
    by_cases hd : (normalize_text raw).head? = some l
    · exact validate_move_ok_some cities g raw l hA hB hC hnl hd
    · rw [validate_move_wrong cities g raw l hA hB hC hnl hd] at h
      simp at h

/-- The acceptance condition of `validate_move`, unpacked. -/
theorem validate_move_ok_iff (cities : Finset (List Char)) (g : Game)
    (raw : List Char) :
    validate_move cities g raw = (true, Reason.ok) ↔
      ¬(normalize_text raw = [] ∨ last_working_letter (normalize_text raw) = none)
      ∧ normalize_text raw ∈ cities
      ∧ normalize_text raw ∉ g.used
      ∧ ∀ l, g.need_letter = some l → (normalize_text raw).head? = some l := by
  constructor
  · intro h
    by_cases hA : normalize_text raw = [] ∨ last_working_letter (normalize_text raw) = none
    · rw [validate_move_invalid cities g raw hA] at h
      simp at h
    by_cases hB : normalize_text raw ∈ cities
    case neg =>
      rw [validate_move_not_in_db cities g raw hA hB] at h
      simp at h
    by_cases hC : normalize_text raw ∈ g.used
    · rw [validate_move_already cities g raw hA hB hC] at h
      simp at h
    refine ⟨hA, hB, hC, ?_⟩
    intro l hnl
    by_cases hd : (normalize_text raw).head? = some l
    · exact hd
    · rw [validate_move_wrong cities g raw l hA hB hC hnl hd] at h
      simp at h
  · rintro ⟨hA, hB, hC, h4⟩
    cases hnl : g.need_letter with
    | none => exact validate_move_ok_none cities g raw hA hB hC hnl
    | some l => exact validate_move_ok_some cities g raw l hA hB hC hnl (h4 l hnl)

/-- Claim C1.  `validate_move` checks its rejection reasons in the fixed
short-circuit order of the source: `invalid_name` iff the normalized form is
empty or has no last pronounceable letter; otherwise `not_in_db` iff it is
not in the dictionary; otherwise `already_used` iff it was already played;
otherwise `wrong_letter` iff a required letter is set and the city does not
start with it; otherwise the move is accepted as `(true, ok)`. -/
theorem validate_move_order (cities : Finset (List Char)) (g : Game)
    (raw : List Char) :
    (validate_move cities g raw = (false, Reason.invalid_name) ↔
      (normalize_text raw = [] ∨ last_working_letter (normalize_text raw) = none))
    ∧ (¬(normalize_text raw = [] ∨ last_working_letter (normalize_text raw) = none) →
        (validate_move cities g raw = (false, Reason.not_in_db) ↔
          normalize_text raw ∉ cities))
    ∧ (¬(normalize_text raw = [] ∨ last_working_letter (normalize_text raw) = none) →
        normalize_text raw ∈ cities →
        (validate_move cities g raw = (false, Reason.already_used) ↔
          normalize_text raw ∈ g.used))
    ∧ (¬(normalize_text raw = [] ∨ last_working_letter (normalize_text raw) = none) →
        normalize_text raw ∈ cities → normalize_text raw ∉ g.used →
        (validate_move cities g raw = (false, Reason.wrong_letter) ↔
          ∃ l, g.need_letter = some l ∧ ¬(normalize_text raw).head? = some l))
    ∧ (¬(normalize_text raw = [] ∨ last_working_letter (normalize_text raw) = none) →
        normalize_text raw ∈ cities → normalize_text raw ∉ g.used →
        (∀ l, g.need_letter = some l → (normalize_text raw).head? = some l) →
        validate_move cities g raw = (true, Reason.ok)) := by
  refine ⟨⟨fun h => ?_, fun hA => validate_move_invalid cities g raw hA⟩,
    fun hA => ⟨fun h => ?_, fun hB => validate_move_not_in_db cities g raw hA hB⟩,
    fun hA hB => ⟨fun h => ?_, fun hC => validate_move_already cities g raw hA hB hC⟩,
    fun hA hB hC => ⟨fun h => ?_, fun hD => ?_⟩,
    fun hA hB hC h4 => (validate_move_ok_iff cities g raw).mpr ⟨hA, hB, hC, h4⟩⟩
  · by_contra hA
    have hok := validate_move_ok_iff cities g raw
    by_cases hB : normalize_text raw ∈ cities
    · by_cases hC : normalize_text raw ∈ g.used
      · rw [validate_move_already cities g raw hA hB hC] at h
        simp at h
      · cases hnl : g.need_letter with
        | none =>
          rw [validate_move_ok_none cities g raw hA hB hC hnl] at h
          simp at h
        | some l =>
          by_cases hd : (normalize_text raw).head? = some l
          · rw [validate_move_ok_some cities g raw l hA hB hC hnl hd] at h
            simp at h
          · rw [validate_move_wrong cities g raw l hA hB hC hnl hd] at h
            simp at h
    · rw [validate_move_not_in_db cities g raw hA hB] at h
      simp at h
  · by_contra hB
    by_cases hC : normalize_text raw ∈ g.used
    · rw [validate_move_already cities g raw hA hB hC] at h
      simp at h
    · cases hnl : g.need_letter with
      | none =>
        rw [validate_move_ok_none cities g raw hA hB hC hnl] at h
        simp at h
      | some l =>
        by_cases hd : (normalize_text raw).head? = some l
        · rw [validate_move_ok_some cities g raw l hA hB hC hnl hd] at h
          simp at h
        · rw [validate_move_wrong cities g raw l hA hB hC hnl hd] at h
          simp at h
  · by_contra hC
    cases hnl : g.need_letter with
    | none =>
      rw [validate_move_ok_none cities g raw hA hB hC hnl] at h
      simp at h
    | some l =>
      by_cases hd : (normalize_text raw).head? = some l
      · rw [validate_move_ok_some cities g raw l hA hB hC hnl hd] at h
        simp at h
      · rw [validate_move_wrong cities g raw l hA hB hC hnl hd] at h
        simp at h
  · cases hnl : g.need_letter with
    | none =>
      rw [validate_move_ok_none cities g raw hA hB hC hnl] at h
      simp at h
    | some l =>
      by_cases hd : (normalize_text raw).head? = some l
      · rw [validate_move_ok_some cities g raw l hA hB hC hnl hd] at h
        simp at h
      · exact ⟨l, rfl, hd⟩
  · obtain ⟨l, hnl, hd⟩ := hD
    exact validate_move_wrong cities g raw l hA hB hC hnl hd

/-- Witness for `validate_move_order`: on a fresh session with a singleton
dictionary, an in-dictionary city is accepted. -/
theorem validate_move_order_witness :
    validate_move {['м', 'о', 'с', 'к', 'в', 'а']}
      ⟨[10, 20], [], ∅, 0, none, true⟩ ['М', 'о', 'с', 'к', 'в', 'а'] =
      (true, Reason.ok) :=
  (validate_move_order {['м', 'о', 'с', 'к', 'в', 'а']}
      ⟨[10, 20], [], ∅, 0, none, true⟩ ['М', 'о', 'с', 'к', 'в', 'а']).2.2.2.2
    (by decide) (by decide) (by decide) (by decide)

/-- Lookup after deletion: the deleted key reads `none`, others are
unaffected. -/
theorem alistGet_erase {β : Type} (l : List (Int × β)) (k key : Int) :
    alistGet (alistErase l k) key = if key = k then none else alistGet l key := by
  induction l with
  | nil =>
    simp only [alistErase, List.filter_nil, alistGet]
    split <;> rfl
  | cons p t ih =>
    by_cases hk : p.1 = k
    · have h1 : alistErase (p :: t) k = alistErase t k := by
        simp [alistErase, List.filter_cons, hk]
      rw [h1, ih]
      by_cases hkey : key = k
      · simp [hkey]
      · have hkp : ¬ key = p.1 := fun h => hkey (h.trans hk)
        simp [alistGet, hkey, hkp]
    · have h1 : alistErase (p :: t) k = p :: alistErase t k := by
        simp [alistErase, List.filter_cons, hk]
      rw [h1]
      by_cases hpk : key = p.1
      · have hkk : ¬ key = k := fun h => hk (hpk.symm.trans h)
        simp [alistGet, hpk, hkk, hk]
      · simp only [alistGet, if_neg hpk]
        exact ih

/-- Lookup after update: the updated key reads the new value, others are
unaffected. -/
theorem alistGet_set {β : Type} (l : List (Int × β)) (k key : Int) (v : β) :
    alistGet (alistSet l k v) key = if key = k then some v else alistGet l key := by
  simp only [alistSet, alistGet]
  rw [alistGet_erase]
  by_cases h : key = k <;> simp [h]

/-- The session state built by the accepted-move path of `handle_text`
(src/city.py:203-206): record the city, recompute the required letter,
advance the turn cyclically. -/
def movedGame (g : Game) (city : List Char) : Game :=
  { g with used := insert city g.used,
           need_letter := last_working_letter city,
           turn_idx := (g.turn_idx + 1) % g.players.length }

set_option maxHeartbeats 2000000 in
/-- Claim C2.  For every accepted move in an active session the normalized
city is appended to `used`, the required letter is recomputed via
`last_working_letter`, the turn index advances cyclically (all recorded in
`movedGame`), and then `has_moves` decides the outcome: if it fails, the
mover — not the opponent — is the declared winner and the session is removed
from the registry; otherwise the updated session stays active in the
registry. -/
theorem accepted_move_transition
    (cities : Finset (List Char)) (bf : Char → Finset (List Char))
    (games : List (Int × Game)) (chat user : Int) (text : List Char) (g : Game)
    (hget : alistGet games chat = some g)
    (hst : g.started = true)
    (hlen : 2 ≤ g.players.length)
    (hcur : g.current_player = some user)
    (hok : validate_move cities g text = (true, Reason.ok)) :
    (has_moves bf (movedGame g (normalize_text text)) = false →
      handle_text cities bf games chat user text =
        (alistErase games chat, TextOutcome.accepted_win user)
      ∧ alistGet (alistErase games chat) chat = none)
    ∧ (has_moves bf (movedGame g (normalize_text text)) = true →
      handle_text cities bf games chat user text =
        (alistSet games chat (movedGame g (normalize_text text)),
          TextOutcome.accepted_next (movedGame g (normalize_text text)).current_player)
      ∧ alistGet (alistSet games chat (movedGame g (normalize_text text))) chat =
          some (movedGame g (normalize_text text))) := by
  have hmem : user ∈ g.players := mem_of_current_player hcur
  have hcond1 : ¬(¬(g.started = true) ∨ g.players.length < 2) := by
    rintro (h | h)
    · exact h hst
    · omega
  have hcond2 : ¬(user ∉ g.players) := not_not_intro hmem
  have hcond3 : ¬(g.current_player ≠ some user) := not_not_intro hcur
  have hcond4 : ¬((validate_move cities g text).1 = false) := by
    rw [hok]
    simp
  have hg3 : ({ g.add_used (normalize_text text) with
      need_letter := last_working_letter (normalize_text text) } : Game).next_turn =
      movedGame g (normalize_text text) := rfl
  have hred : handle_text cities bf games chat user text =
      (if has_moves bf (movedGame g (normalize_text text)) = false
       then (alistErase games chat, TextOutcome.accepted_win user)
       else (alistSet games chat (movedGame g (normalize_text text)),
         TextOutcome.accepted_next (movedGame g (normalize_text text)).current_player)) := by
    simp only [handle_text, hget]
    rw [if_neg hcond1, if_neg hcond2, if_neg hcond3, if_neg hcond4]
    rw [hg3]
  constructor
  · intro hm
    refine ⟨?_, ?_⟩
    · rw [hred, if_pos hm]
    · rw [alistGet_erase]
      simp
  · intro hm
    refine ⟨?_, ?_⟩
    · rw [hred, if_neg (by simp [hm])]
    · rw [alistGet_set]
      simp

/-- Witness for `accepted_move_transition`: with a one-city dictionary and
empty buckets, the first accepted move immediately wins for the mover and
deletes the session. -/
theorem accepted_move_transition_witness :
    handle_text {['м', 'о', 'с', 'к', 'в', 'а']} (fun _ => ∅)
      [(1, ⟨[10, 20], [], ∅, 0, none, true⟩)] 1 10 ['М', 'о', 'с', 'к', 'в', 'а'] =
      (alistErase [(1, ⟨[10, 20], [], ∅, 0, none, true⟩)] 1,
        TextOutcome.accepted_win 10)
    ∧ alistGet (alistErase [(1, (⟨[10, 20], [], ∅, 0, none, true⟩ : Game))] 1) 1 =
        none :=
  (accepted_move_transition {['м', 'о', 'с', 'к', 'в', 'а']} (fun _ => ∅)
      [(1, ⟨[10, 20], [], ∅, 0, none, true⟩)] 1 10 ['М', 'о', 'с', 'к', 'в', 'а']
      ⟨[10, 20], [], ∅, 0, none, true⟩
      (by decide) (by decide) (by decide) (by decide) (by decide)).1 (by decide)

/-- The outcomes of `handle_text` that reject the input (everything except
an accepted move). -/
def isTextRejection (o : TextOutcome) : Bool :=
  match o with
  | TextOutcome.accepted_win _ => false
  | TextOutcome.accepted_next _ => false
  | _ => true

/-- The outcomes of `cmd_join` that reject the request. -/
def isJoinRejection (o : JoinOutcome) : Bool :=
  match o with
  | JoinOutcome.joined _ => false
  | _ => true

/-- Claim C3.  Every user-input rejection — the four `validate_move` reason
codes, not-your-turn, waiting-for-second-player, not-in-game,
no-active-game, already-in-lobby, lobby-full, game-already-created — leaves
the registry, and hence every field of every stored session, exactly as it
was. -/
theorem rejection_preserves_state
    (cities : Finset (List Char)) (bf : Char → Finset (List Char))
    (games : List (Int × Game)) (chat user : Int) (text uname : List Char) :
    (isTextRejection (handle_text cities bf games chat user text).2 = true →
      (handle_text cities bf games chat user text).1 = games)
    ∧ (isJoinRejection (cmd_join games chat user uname).2 = true →
      (cmd_join games chat user uname).1 = games)
    ∧ ((cmd_start games chat user uname).2 = StartOutcome.already_created →
      (cmd_start games chat user uname).1 = games) := by
  refine ⟨?_, ?_, ?_⟩
  · cases hget : alistGet games chat with
    | none =>
      intro _
      simp [handle_text, hget]
    | some g =>
      by_cases h1 : ¬(g.started = true) ∨ g.players.length < 2
      · intro _
        simp only [handle_text, hget]
        rw [if_pos h1]
      · by_cases h2 : user ∉ g.players
        · intro _
          simp only [handle_text, hget]
          rw [if_neg h1, if_pos h2]
        · by_cases h3 : g.current_player ≠ some user
          · intro _
            simp only [handle_text, hget]
            rw [if_neg h1, if_neg h2, if_pos h3]
          · by_cases h4 : (validate_move cities g text).1 = false
            · intro _
              simp only [handle_text, hget]
              rw [if_neg h1, if_neg h2, if_neg h3, if_pos h4]
            · intro hrej
              have hred : handle_text cities bf games chat user text =
                  (if has_moves bf
                      (({ g.add_used (normalize_text text) with
                        need_letter :=
                          last_working_letter (normalize_text text) } : Game).next_turn) =
                      false
                   then (alistErase games chat, TextOutcome.accepted_win user)
                   else (alistSet games chat
                       (({ g.add_used (normalize_text text) with
                         need_letter :=
                           last_working_letter (normalize_text text) } : Game).next_turn),
                     TextOutcome.accepted_next
                       ((({ g.add_used (normalize_text text) with
                         need_letter :=
                           last_working_letter (normalize_text text) } : Game).next_turn).current_player))) := by
                simp only [handle_text, hget]
                rw [if_neg h1, if_neg h2, if_neg h3, if_neg h4]
              rw [hred] at hrej
              by_cases hm : has_moves bf
                  (({ g.add_used (normalize_text text) with
                    need_letter :=
                      last_working_letter (normalize_text text) } : Game).next_turn) = false
              · rw [if_pos hm] at hrej
                simp [isTextRejection] at hrej
              · rw [if_neg hm] at hrej
                simp [isTextRejection] at hrej
  · cases hget : alistGet games chat with
    | none =>
      intro _
      simp [cmd_join, hget]
    | some g =>
      by_cases h1 : user ∈ g.players
      · intro _
        simp only [cmd_join, hget]
        rw [if_pos h1]
      · by_cases h2 : 2 ≤ g.players.length
        · intro _
          simp only [cmd_join, hget]
          rw [if_neg h1, if_pos h2]
        · intro hrej
          simp only [cmd_join, hget] at hrej
          rw [if_neg h1, if_neg h2] at hrej
          simp [isJoinRejection] at hrej
  · cases hget : alistGet games chat with
    | none =>
      intro hrej
      simp only [cmd_start, hget] at hrej
      cases hrej
    | some g =>
      intro _
      simp [cmd_start, hget]

/-- Witness for `rejection_preserves_state`: submitting text with no active
game is silently ignored and changes nothing, joining without a game is
rejected unchanged, and a second `/start` is rejected unchanged. -/
theorem rejection_preserves_state_witness :
    ((handle_text ∅ (fun _ => ∅) [] 1 10 ['а']).1 = [])
    ∧ ((cmd_join [] 1 10 ['B']).1 = []) :=
  ⟨(rejection_preserves_state ∅ (fun _ => ∅) [] 1 10 ['а'] ['B']).1 (by decide),
    (rejection_preserves_state ∅ (fun _ => ∅) [] 1 10 ['а'] ['B']).2.1 (by decide)⟩

/-- A letter returned by `last_working_letter` lies outside `TAIL_SKIP` and
is an alphabetic character of the normalized name. -/
theorem last_working_letter_props {city : List Char} {l : Char}
    (h : last_working_letter city = some l) :
    l ∉ TAIL_SKIP ∧ keepAlpha l = true := by
  simp only [last_working_letter] at h
  have h1 := List.find?_some h
  have h2 := List.mem_of_find?_eq_some h
  constructor
  · simpa using h1
  · exact (mem_normalize_props (List.mem_reverse.mp h2)).2.2

/-- One registry transition of the system: any of the four session-mutating
handlers applied with arbitrary arguments (and, for moves, an arbitrary
dictionary). -/
inductive GameStep : List (Int × Game) → List (Int × Game) → Prop where
  | start (games : List (Int × Game)) (chat user : Int) (uname : List Char) :
      GameStep games (cmd_start games chat user uname).1
  | join (games : List (Int × Game)) (chat user : Int) (uname : List Char) :
      GameStep games (cmd_join games chat user uname).1
  | text (cities : Finset (List Char)) (bf : Char → Finset (List Char))
      (games : List (Int × Game)) (chat user : Int) (t : List Char) :
      GameStep games (handle_text cities bf games chat user t).1
  | restart (games : List (Int × Game)) (chat : Int) :
      GameStep games (cmd_restart games chat)

/-- Registries reachable from the empty initial registry by handler calls. -/
inductive ReachableReg : List (Int × Game) → Prop where
  | init : ReachableReg []
  | step {gs gs' : List (Int × Game)} :
      ReachableReg gs → GameStep gs gs' → ReachableReg gs'

/-- A Boolean test for whether the result of `(validate_move ...).1` is not
`false` forces the full accepted result. -/
theorem validate_move_not_false {cities : Finset (List Char)} {g : Game}
    {raw : List Char} (h : ¬((validate_move cities g raw).1 = false)) :
    validate_move cities g raw = (true, Reason.ok) := by
  apply validate_move_true
  revert h
  cases (validate_move cities g raw).1 <;> simp

set_option maxHeartbeats 3000000 in
/-- Every step preserves the invariant that a session with no required
letter has an empty `used` set. -/
theorem step_preserves_unconstrained {gs gs' : List (Int × Game)}
    (hstep : GameStep gs gs')
    (hinv : ∀ chat g, alistGet gs chat = some g → g.need_letter = none →
      g.used = ∅) :
    ∀ chat g, alistGet gs' chat = some g → g.need_letter = none → g.used = ∅ := by
  cases hstep with
  | start _gms chat0 user uname =>
    intro chat g hget hnl
    cases hg0 : alistGet gs chat0 with
    | some g0 =>
      rw [show (cmd_start gs chat0 user uname).1 = gs by
        simp [cmd_start, hg0]] at hget
      exact hinv chat g hget hnl
    | none =>
      rw [show (cmd_start gs chat0 user uname).1 =
          alistSet gs chat0 ⟨[user], [(user, uname)], ∅, 0, none, false⟩ by
        simp [cmd_start, hg0]] at hget
      rw [alistGet_set] at hget
      by_cases hc : chat = chat0
      · rw [if_pos hc] at hget
        cases hget
        rfl
      · rw [if_neg hc] at hget
        exact hinv chat g hget hnl
  | join _gms chat0 user uname =>
    intro chat g hget hnl
    cases hg0 : alistGet gs chat0 with
    | none =>
      rw [show (cmd_join gs chat0 user uname).1 = gs by
        simp [cmd_join, hg0]] at hget
      exact hinv chat g hget hnl
    | some g0 =>
      by_cases h1 : user ∈ g0.players
      · rw [show (cmd_join gs chat0 user uname).1 = gs by
          simp only [cmd_join, hg0]; rw [if_pos h1]] at hget
        exact hinv chat g hget hnl
      · by_cases h2 : 2 ≤ g0.players.length
        · rw [show (cmd_join gs chat0 user uname).1 = gs by
            simp only [cmd_join, hg0]; rw [if_neg h1, if_pos h2]] at hget
          exact hinv chat g hget hnl
        · rw [show (cmd_join gs chat0 user uname).1 =
              alistSet gs chat0
                { g0 with players := g0.players ++ [user],
                          usernames := alistSet g0.usernames user uname,
                          started := true } by
            simp only [cmd_join, hg0]; rw [if_neg h1, if_neg h2]] at hget
          rw [alistGet_set] at hget
          by_cases hc : chat = chat0
          · rw [if_pos hc] at hget
            cases hget
            exact hinv chat0 g0 hg0 hnl
          · rw [if_neg hc] at hget
            exact hinv chat g hget hnl
  | text cities bf _gms chat0 user t =>
    intro chat g hget hnl
    cases hg0 : alistGet gs chat0 with
    | none =>
      rw [show (handle_text cities bf gs chat0 user t).1 = gs by
        simp [handle_text, hg0]] at hget
      exact hinv chat g hget hnl
    | some g0 =>
      by_cases h1 : ¬(g0.started = true) ∨ g0.players.length < 2
      · rw [show (handle_text cities bf gs chat0 user t).1 = gs by
          simp only [handle_text, hg0]; rw [if_pos h1]] at hget
        exact hinv chat g hget hnl
      · by_cases h2 : user ∉ g0.players
        · rw [show (handle_text cities bf gs chat0 user t).1 = gs by
            simp only [handle_text, hg0]; rw [if_neg h1, if_pos h2]] at hget
          exact hinv chat g hget hnl
        · by_cases h3 : g0.current_player ≠ some user
          · rw [show (handle_text cities bf gs chat0 user t).1 = gs by
              simp only [handle_text, hg0]; rw [if_neg h1, if_neg h2, if_pos h3]] at hget
            exact hinv chat g hget hnl
          · by_cases h4 : (validate_move cities g0 t).1 = false
            · rw [show (handle_text cities bf gs chat0 user t).1 = gs by
                simp only [handle_text, hg0];
                  rw [if_neg h1, if_neg h2, if_neg h3, if_pos h4]] at hget
              exact hinv chat g hget hnl
            · have hok := validate_move_not_false h4
              obtain ⟨hA, _, _, _⟩ := (validate_move_ok_iff cities g0 t).mp hok
              have hred : (handle_text cities bf gs chat0 user t).1 =
                  (if has_moves bf
                      (({ g0.add_used (normalize_text t) with
                        need_letter :=
                          last_working_letter (normalize_text t) } : Game).next_turn) =
                      false
                   then alistErase gs chat0
                   else alistSet gs chat0
                     (({ g0.add_used (normalize_text t) with
                       need_letter :=
                         last_working_letter (normalize_text t) } : Game).next_turn)) := by
                simp only [handle_text, hg0]
                rw [if_neg h1, if_neg h2, if_neg h3, if_neg h4]
                by_cases hm : has_moves bf
                    (({ g0.add_used (normalize_text t) with
                      need_letter :=
                        last_working_letter (normalize_text t) } : Game).next_turn) = false
                · rw [if_pos hm, if_pos hm]
                · rw [if_neg hm, if_neg hm]
              rw [hred] at hget
              by_cases hm : has_moves bf
                  (({ g0.add_used (normalize_text t) with
                    need_letter :=
                      last_working_letter (normalize_text t) } : Game).next_turn) = false
              · rw [if_pos hm, alistGet_erase] at hget
                by_cases hc : chat = chat0
                · rw [if_pos hc] at hget
                  cases hget
                · rw [if_neg hc] at hget
                  exact hinv chat g hget hnl
              · rw [if_neg hm, alistGet_set] at hget
                by_cases hc : chat = chat0
                · rw [if_pos hc] at hget
                  cases hget
                  cases hlwl : last_working_letter (normalize_text t) with
                  | none => exact absurd (Or.inr hlwl) hA
                  | some l =>
                    exfalso
                    have : (({ g0.add_used (normalize_text t) with
                        need_letter :=
                          last_working_letter (normalize_text t) } : Game).next_turn).need_letter =
                        last_working_letter (normalize_text t) := rfl
                    rw [hnl] at this
                    rw [hlwl] at this
                    cases this
                · rw [if_neg hc] at hget
                  exact hinv chat g hget hnl
  | restart _gms chat0 =>
    intro chat g hget hnl
    rw [show cmd_restart gs chat0 = alistErase gs chat0 from rfl,
      alistGet_erase] at hget
    by_cases hc : chat = chat0
    · rw [if_pos hc] at hget
      cases hget
    · rw [if_neg hc] at hget
      exact hinv chat g hget hnl

set_option maxHeartbeats 4000000 in
/-- Claim C9.  After every accepted move the required letter equals
`last_working_letter` of the city just accepted: it is `some l` with `l`
outside the tail-skip set `{ь, ъ, ы}` and alphabetic, never `none`; and on
every registry reachable by handler calls, a session with no required
letter has played no city yet (the unconstrained state exists only before
the first accepted move; the `Option` type carries no separate sentinel). -/
theorem need_letter_invariant :
    (∀ (cities : Finset (List Char)) (bf : Char → Finset (List Char))
      (games : List (Int × Game)) (chat user : Int) (text : List Char),
      isTextRejection (handle_text cities bf games chat user text).2 = false →
      ∃ l, last_working_letter (normalize_text text) = some l ∧ l ∉ TAIL_SKIP ∧
        keepAlpha l = true ∧
        ∀ g', alistGet (handle_text cities bf games chat user text).1 chat = some g' →
          g'.need_letter = some l)
    ∧ (∀ gs, ReachableReg gs → ∀ chat g, alistGet gs chat = some g →
        g.need_letter = none → g.used = ∅) := by
  constructor
  · intro cities bf games chat user text hacc
    cases hget : alistGet games chat with
    | none =>
      simp only [handle_text, hget] at hacc
      simp [isTextRejection] at hacc
    | some g =>
      by_cases h1 : ¬(g.started = true) ∨ g.players.length < 2
      · simp only [handle_text, hget] at hacc
        rw [if_pos h1] at hacc
        simp [isTextRejection] at hacc
      · by_cases h2 : user ∉ g.players
        · simp only [handle_text, hget] at hacc
          rw [if_neg h1, if_pos h2] at hacc
          simp [isTextRejection] at hacc
        · by_cases h3 : g.current_player ≠ some user
          · simp only [handle_text, hget] at hacc
            rw [if_neg h1, if_neg h2, if_pos h3] at hacc
            simp [isTextRejection] at hacc
          · by_cases h4 : (validate_move cities g text).1 = false
            · simp only [handle_text, hget] at hacc
              rw [if_neg h1, if_neg h2, if_neg h3, if_pos h4] at hacc
              simp [isTextRejection] at hacc
            · have hok := validate_move_not_false h4
              obtain ⟨hA, _, _, _⟩ := (validate_move_ok_iff cities g text).mp hok
              obtain ⟨l, hlwl⟩ : ∃ l,
                  last_working_letter (normalize_text text) = some l := by
                cases hv : last_working_letter (normalize_text text) with
                | none => exact absurd (Or.inr hv) hA
                | some l => exact ⟨l, rfl⟩
              obtain ⟨hskip, halpha⟩ := last_working_letter_props hlwl
              have hred1 : (handle_text cities bf games chat user text).1 =
                  (if has_moves bf
                      (({ g.add_used (normalize_text text) with
                        need_letter :=
                          last_working_letter (normalize_text text) } : Game).next_turn) =
                      false
                   then alistErase games chat
                   else alistSet games chat
                     (({ g.add_used (normalize_text text) with
                       need_letter :=
                         last_working_letter (normalize_text text) } : Game).next_turn)) := by
                simp only [handle_text, hget]
                rw [if_neg h1, if_neg h2, if_neg h3, if_neg h4]
                by_cases hm : has_moves bf
                    (({ g.add_used (normalize_text text) with
                      need_letter :=
                        last_working_letter (normalize_text text) } : Game).next_turn) = false
                · rw [if_pos hm, if_pos hm]
                · rw [if_neg hm, if_neg hm]
              refine ⟨l, hlwl, hskip, halpha, ?_⟩
              intro g' hget'
              rw [hred1] at hget'
              by_cases hm : has_moves bf
                  (({ g.add_used (normalize_text text) with
                    need_letter :=
                      last_working_letter (normalize_text text) } : Game).next_turn) = false
              · rw [if_pos hm, alistGet_erase] at hget'
                simp at hget'
              · rw [if_neg hm, alistGet_set] at hget'
                rw [if_pos rfl] at hget'
                have hg := Option.some_injective _ hget'
                rw [← hg]
                show last_working_letter (normalize_text text) = some l
                exact hlwl
  · intro gs h
    induction h with
    | init =>
      intro chat g hget
      simp [alistGet] at hget
    | step hr hstep ih => exact step_preserves_unconstrained hstep ih

/-- Witness for `need_letter_invariant`: the accepted move `Москва` yields
the required letter `а`, and the letter facts hold for every session left in
the registry afterwards. -/
theorem need_letter_invariant_witness :
    ∃ l, last_working_letter (normalize_text ['М', 'о', 'с', 'к', 'в', 'а']) = some l ∧
      l ∉ TAIL_SKIP ∧ keepAlpha l = true ∧
      ∀ g', alistGet (handle_text {['м', 'о', 'с', 'к', 'в', 'а']} (fun _ => ∅)
          [(1, ⟨[10, 20], [], ∅, 0, none, true⟩)] 1 10
          ['М', 'о', 'с', 'к', 'в', 'а']).1 1 = some g' →
        g'.need_letter = some l :=
  need_letter_invariant.1 {['м', 'о', 'с', 'к', 'в', 'а']} (fun _ => ∅)
    [(1, ⟨[10, 20], [], ∅, 0, none, true⟩)] 1 10 ['М', 'о', 'с', 'к', 'в', 'а']
    (by decide)
